import Mathlib

/-!
Shallow embedding of the diff engine of `src/utils/diffUtils.ts`
(document diff plugin).  Strings are modelled as `List Char`, string
arrays as `List (List Char)`.  JavaScript array indexing `a[i]` inside
the algorithms is always guarded by bounds tests in the source, so it is
modelled by `getE` (lookup with a default that is never observed inside
the guarded region).  All definitions are structural, hence computable
by `decide` on concrete inputs.
-/

namespace DocDiff

abbrev Line := List Char

/-- Embedding of the TS union `'added' | 'removed' | 'context'`. -/
inductive DiffType where
  | added
  | removed
  | context
deriving DecidableEq, Repr

/-- Embedding of the TS interface `DiffLine`.  The optional TS fields
`oldLineNumber?` / `newLineNumber?` become `Option Nat`; `isIdLine?` is
always assigned by `computeLineDiff`, so it is a plain `Bool`. -/
structure DiffLine where
  type : DiffType
  oldLineNumber : Option Nat
  newLineNumber : Option Nat
  content : Line
  isIdLine : Bool
deriving DecidableEq, Repr

/-- Embedding of the `stats` object of the TS interface `DiffResult`. -/
structure DiffStats where
  additions : Nat
  deletions : Nat
  changes : Nat
deriving DecidableEq, Repr

/-- Embedding of the TS interface `DiffResult`. -/
structure DiffResult where
  lines : List DiffLine
  stats : DiffStats
deriving DecidableEq, Repr

/-- JavaScript `a[i]` (guarded in the source by bounds checks, so the
default value is never observed by the algorithms). -/
def getE {α : Type} [Inhabited α] (l : List α) (i : Nat) : α :=
  l.getD i default

/-- First pass of `normalizeLineEndings`: the global replace of the
two-character sequence CR LF by LF (`text.replace(/\r\n/g, '\n')`). -/
def stripCRLF : List Char → List Char
  | [] => []
  | [c] => [c]
  | c :: d :: rest =>
    if c = '\r' ∧ d = '\n' then '\n' :: stripCRLF rest
    else c :: stripCRLF (d :: rest)

/-- Second pass of `normalizeLineEndings`: the global replace of every
remaining CR by LF (`.replace(/\r/g, '\n')`). -/
def stripCR (t : List Char) : List Char :=
  t.map (fun c => if c = '\r' then '\n' else c)

/-- Embedding of `normalizeLineEndings`. -/
def normalizeLineEndings (t : List Char) : List Char :=
  stripCR (stripCRLF t)

/-- Embedding of `preprocessText`: empty input stays empty (the TS
`if (!text) return ''`; `null`/`undefined` inputs are coerced to the
empty string by the caller's `text || ''`), otherwise line endings are
normalized and a trailing newline is forced. -/
def preprocessText (t : List Char) : List Char :=
  if t = [] then []
  else if (normalizeLineEndings t).length > 0 ∧
      (normalizeLineEndings t).getLast? ≠ some '\n' then
    normalizeLineEndings t ++ ['\n']
  else normalizeLineEndings t

/-- Whitespace test for the `\s` class of the TS regexes, restricted to
the ASCII range (the inputs relevant here); `\s` additionally matches
Unicode spaces, which this model does not cover. -/
def isWsChar (c : Char) : Bool :=
  c = ' ' || c = '\t' || c = '\n' || c = '\r' || c = '\x0b' || c = '\x0c'

/-- JavaScript `String.prototype.trim` (ASCII whitespace range). -/
def trimChars (l : Line) : Line :=
  ((l.dropWhile isWsChar).reverse.dropWhile isWsChar).reverse

/-- Embedding of `isIdLine`: the test `/^\s*\{:\s+.*}/` applied to the
trimmed content.  After the literal brace-colon token the regex demands
at least one whitespace character followed by a closing brace somewhere
later (`.` cannot match a line break, and line contents contain none). -/
def isIdLine (content : Line) : Bool :=
  let t := trimChars content
  match t.dropWhile isWsChar with
  | '\x7b' :: ':' :: rest =>
    match rest with
    | c :: rest2 => isWsChar c && rest2.contains '\x7d'
    | [] => false
  | _ => false

/-- JavaScript `text.split('\n')` on a character list: one entry per
line, `[] ↦ [[]]`, a trailing separator yields a trailing empty entry. -/
def splitLines : List Char → List Line
  | [] => [[]]
  | c :: rest =>
    if c = '\n' then [] :: splitLines rest
    else
      match splitLines rest with
      | [] => [[c]]
      | l :: ls => (c :: l) :: ls

/-- The index-based filter applied to the split result inside
`computeTextDiff`: keep an entry when `index < array.length - 1` or the
entry is non-empty (so only a final empty entry is dropped). -/
def filterLines (l : List Line) : List Line :=
  (l.enum.filter (fun p => decide (p.1 < l.length - 1) || decide (p.2 ≠ []))).map Prod.snd

/-- The normalizing front end of `computeTextDiff`: preprocess, split on
the line break, drop the synthetic final empty entry. -/
def linesOf (t : List Char) : List Line :=
  filterLines (splitLines (preprocessText t))

/-- One row step of the LCS dynamic-programming table of
`longestCommonSubsequence`: given row `i` (as a function of `j`) and the
element `A[i]`, compute row `i+1` pointwise.  `dpSucc di ai B j` is the
cell `dp[i+1][j]`. -/
def dpSucc (di : Nat → Nat) (ai : Line) (B : List Line) : Nat → Nat
  | 0 => 0
  | j + 1 =>
    if ai = getE B j then di j + 1
    else max (di (j + 1)) (dpSucc di ai B j)

/-- The DP table of `longestCommonSubsequence`: `dpT A B i j` is the
cell `dp[i][j]` (row 0 and column 0 are the zero initialisation). -/
def dpT (A B : List Line) : Nat → Nat → Nat
  | 0 => fun _ => 0
  | i + 1 => dpSucc (dpT A B i) (getE A i) B

/-- The backtracking loop of `longestCommonSubsequence`, from state
`(i, j)`; the original `while (i > 0 && j > 0)` loop makes at most
`i + j` steps, which the `fuel` argument bounds (it is always called
with enough fuel). -/
def backtrackAux (A B : List Line) : Nat → Nat → Nat → List Line
  | _, 0, _ => []
  | _, _, 0 => []
  | 0, _ + 1, _ + 1 => []
  | fuel + 1, i + 1, j + 1 =>
    if getE A i = getE B j then backtrackAux A B fuel i j ++ [getE A i]
    else if dpT A B i (j + 1) > dpT A B (i + 1) j then backtrackAux A B fuel i (j + 1)
    else backtrackAux A B fuel (i + 1) j

/-- Embedding of `longestCommonSubsequence`: build the DP table and
backtrack from `dp[m][n]`. -/
def longestCommonSubsequence (A B : List Line) : List Line :=
  backtrackAux A B (A.length + B.length) A.length B.length

/-- The three-pointer merge loop of `computeLineDiff`, from state
`(i, j, k)` with 1-based line counters `oldN`, `newN`.  The loop makes
at most `|A| + |B|` iterations, bounded by `fuel`.  The final inner
`else` branch (no branch applicable while the loop condition holds) is
unreachable when `lcs` is a genuine common subsequence of the remaining
inputs; there the original JavaScript would loop forever, and the model
returns `[]`. -/
def diffGoAux (A B lcs : List Line) :
    Nat → Nat → Nat → Nat → Nat → Nat → List DiffLine
  | 0, _, _, _, _, _ => []
  | fuel + 1, i, j, k, oldN, newN =>
    if i < A.length ∨ j < B.length then
      if k < lcs.length ∧ i < A.length ∧ j < B.length ∧
          getE A i = getE lcs k ∧ getE B j = getE lcs k then
        { type := .context, oldLineNumber := some oldN, newLineNumber := some newN,
          content := getE A i, isIdLine := isIdLine (getE A i) } ::
          diffGoAux A B lcs fuel (i + 1) (j + 1) (k + 1) (oldN + 1) (newN + 1)
      else if i < A.length ∧ (lcs.length ≤ k ∨ getE A i ≠ getE lcs k) then
        { type := .removed, oldLineNumber := some oldN, newLineNumber := none,
          content := getE A i, isIdLine := isIdLine (getE A i) } ::
          diffGoAux A B lcs fuel (i + 1) j k (oldN + 1) newN
      else if j < B.length then
        { type := .added, oldLineNumber := none, newLineNumber := some newN,
          content := getE B j, isIdLine := isIdLine (getE B j) } ::
          diffGoAux A B lcs fuel i (j + 1) k oldN (newN + 1)
      else []
    else []

/-- The full (uncollapsed) record list built by the merge loop of
`computeLineDiff`, before `optimizeDiffResult` is applied. -/
def computeLineDiffRaw (A B : List Line) : List DiffLine :=
  diffGoAux A B (longestCommonSubsequence A B) (A.length + B.length) 0 0 0 1 1

/-- `diff[idx].type !== 'context'`, with out-of-range indices mapped to
`false` (the source only probes in-range indices). -/
def nonContextAt (d : List DiffLine) (idx : Nat) : Bool :=
  match d[idx]? with
  | some r => decide (r.type ≠ .context)
  | none => false

/-- Embedding of `findPreviousNonContextIndex`: scan indices below the
current one, downwards; the TS `-1` result becomes `none`. -/
def findPreviousNonContextIndex (d : List DiffLine) : Nat → Option Nat
  | 0 => none
  | i + 1 => if nonContextAt d i then some i else findPreviousNonContextIndex d i

/-- The upward scan of `findNextNonContextIndex` from index `x`; the
`fuel` argument bounds the remaining scan length (always called with
`d.length`, which suffices). -/
def findNextAux (d : List DiffLine) : Nat → Nat → Option Nat
  | 0, _ => none
  | fuel + 1, x =>
    if x < d.length then
      if nonContextAt d x then some x else findNextAux d fuel (x + 1)
    else none

/-- Embedding of `findNextNonContextIndex`: first non-context index
strictly after the current one; the TS `-1` result becomes `none`. -/
def findNextNonContextIndex (d : List DiffLine) (i : Nat) : Option Nat :=
  findNextAux d d.length (i + 1)

/-- The `shouldShow` condition of `optimizeDiffResult` for a context
record at index `i` (`contextLines = 3`). -/
def shouldShow (d : List DiffLine) (i : Nat) : Bool :=
  (match findPreviousNonContextIndex d i with
   | some p => decide (i - p ≤ 3)
   | none => false) ||
  (match findNextNonContextIndex d i with
   | some nx => decide (nx - i ≤ 3)
   | none => false)

/-- Embedding of `optimizeDiffResult`: keep every non-context record;
keep a context record at index `i` only when `shouldShow d i`. -/
def optimizeDiffResult (d : List DiffLine) : List DiffLine :=
  (d.enum.filter (fun p => decide (p.2.type ≠ .context) || shouldShow d p.1)).map Prod.snd

/-- Embedding of `computeLineDiff`: merge loop followed by
`optimizeDiffResult`. -/
def computeLineDiff (A B : List Line) : List DiffLine :=
  optimizeDiffResult (computeLineDiffRaw A B)

/-- Embedding of the counting loop of `calculateStats`. -/
def calculateStats (diff : List DiffLine) : DiffStats :=
  let counts := diff.foldl
    (fun (p : Nat × Nat) line =>
      if line.type = .added then (p.1 + 1, p.2)
      else if line.type = .removed then (p.1, p.2 + 1)
      else p) (0, 0)
  { additions := counts.1, deletions := counts.2, changes := counts.1 + counts.2 }

/-- Embedding of `computeTextDiff`: normalize both inputs, diff the line
lists, aggregate the stats of the returned (collapsed) record list. -/
def computeTextDiff (t1 t2 : List Char) : DiffResult :=
  let lines1 := linesOf t1
  let lines2 := linesOf t2
  let diff := computeLineDiff lines1 lines2
  { lines := diff, stats := calculateStats diff }

/-- Modelled from the spec: the line-ending-normalized text with the
forced trailing line break (spec section 4.1); used to state the
normalizer claim. -/
def normalizedWithBreak (t : List Char) : List Char :=
  if (normalizeLineEndings t).getLast? = some '\n' then normalizeLineEndings t
  else normalizeLineEndings t ++ ['\n']

/-- The per-record shape invariant of the spec data model: context
records carry both line numbers, removed records only the old one,
added records only the new one. -/
def recordShape (r : DiffLine) : Prop :=
  match r.type with
  | .context => r.oldLineNumber.isSome ∧ r.newLineNumber.isSome
  | .removed => r.oldLineNumber.isSome ∧ r.newLineNumber = none
  | .added => r.oldLineNumber = none ∧ r.newLineNumber.isSome

/-- Modelled from the spec: a non-context record exists within 3
positions before or after index `i` (the claimed retention condition of
the context collapser). -/
def nearChange (d : List DiffLine) (i : Nat) : Prop :=
  ∃ j, j < d.length ∧ nonContextAt d j = true ∧
    ((j < i ∧ i ≤ j + 3) ∨ (i < j ∧ j ≤ i + 3))

instance nearChangeDecidable (d : List DiffLine) (i : Nat) :
    Decidable (nearChange d i) :=
  decidable_of_iff
    (∃ j ∈ List.range d.length, nonContextAt d j = true ∧
      ((j < i ∧ i ≤ j + 3) ∨ (i < j ∧ j ≤ i + 3)))
    (by simp [nearChange, List.mem_range])

/-- LCS length in head-recursive form (analysis helper relating the DP
table of the source, which recurses on the tails of the prefixes, to a
front-structural recursion on reversed prefixes). -/
def lcsF : List Line → List Line → Nat
  | [], _ => 0
  | _ :: _, [] => 0
  | a :: as, b :: bs =>
    if a = b then lcsF as bs + 1
    else max (lcsF as (b :: bs)) (lcsF (a :: as) bs)
termination_by as bs => as.length + bs.length

/-! ## LCS machinery -/

theorem dpT_succ_succ (A B : List Line) (i j : Nat) :
    dpT A B (i + 1) (j + 1) =
      if getE A i = getE B j then dpT A B i j + 1
      else max (dpT A B i (j + 1)) (dpT A B (i + 1) j) := rfl

theorem lcsF_nil_right (X : List Line) : lcsF X [] = 0 := by
  cases X <;> simp [lcsF]

theorem lcsF_max (N : Nat) : ∀ as bs l : List Line,
    as.length + bs.length ≤ N → l.Sublist as → l.Sublist bs →
    l.length ≤ lcsF as bs := by
  induction N with
  | zero =>
    intro as bs l hN hA hB
    have has : as = [] := by cases as <;> simp_all
    subst has
    simp [List.sublist_nil.mp hA, lcsF]
  | succ N ih =>
    intro as bs l hN hA hB
    match as, bs with
    | [], _ =>
      simp [List.sublist_nil.mp hA, lcsF]
    | _ :: _, [] =>
      simp [List.sublist_nil.mp hB, lcsF_nil_right]
    | a :: as, b :: bs =>
      by_cases hab : a = b
      · subst hab
        match l with
        | [] => simp [lcsF]
        | x :: l =>
          have hA' : l.Sublist as := by
            cases hA with
            | cons _ h => exact ((List.Sublist.refl l).cons x).trans h
            | cons₂ _ h => exact h
          have hB' : l.Sublist bs := by
            cases hB with
            | cons _ h => exact ((List.Sublist.refl l).cons x).trans h
            | cons₂ _ h => exact h
          have hle := ih as bs l (by simp at hN ⊢; omega) hA' hB'
          have heq : lcsF (a :: as) (a :: bs) = lcsF as bs + 1 := by simp [lcsF]
          rw [heq]
          simp only [List.length_cons]
          omega
      · simp only [lcsF, if_neg hab]
        match l with
        | [] => simp
        | x :: l =>
          cases hA with
          | cons _ h =>
            have := ih as (b :: bs) (x :: l) (by simp at hN ⊢; omega) h hB
            exact this.trans (le_max_left _ _)
          | cons₂ _ h =>
            cases hB with
            | cons _ h2 =>
              have := ih (a :: as) bs (a :: l) (by simp at hN ⊢; omega)
                (h.cons₂ a) h2
              exact this.trans (le_max_right _ _)
            | cons₂ _ h2 => exact absurd rfl hab

theorem take_succ_reverse {l : List Line} {i : Nat} (h : i < l.length) :
    (l.take (i + 1)).reverse = getE l i :: (l.take i).reverse := by
  rw [List.take_succ, List.getElem?_eq_getElem h]
  simp [getE, List.getD_eq_getElem?_getD, List.getElem?_eq_getElem h]

theorem dpT_eq_lcsF (A B : List Line) :
    ∀ i j, i ≤ A.length → j ≤ B.length →
      dpT A B i j = lcsF (A.take i).reverse (B.take j).reverse := by
  intro i
  induction i with
  | zero => intro j _ _; simp [dpT, lcsF]
  | succ i ihi =>
    intro j
    induction j with
    | zero =>
      intro hi _
      rw [take_succ_reverse (by omega)]
      simp [dpT, dpSucc, lcsF]
    | succ j ihj =>
      intro hi hj
      have hiA : i < A.length := by omega
      have hjB : j < B.length := by omega
      rw [dpT_succ_succ, take_succ_reverse hiA, take_succ_reverse hjB]
      simp only [lcsF]
      rw [← take_succ_reverse hiA, ← take_succ_reverse hjB,
        ← ihi j (by omega) (by omega), ← ihi (j + 1) (by omega) (by omega),
        ← ihj (by omega) (by omega)]

theorem dpT_max (A B : List Line) {i j : Nat} (hi : i ≤ A.length)
    (hj : j ≤ B.length) {l : List Line} (hA : l.Sublist (A.take i))
    (hB : l.Sublist (B.take j)) : l.length ≤ dpT A B i j := by
  rw [dpT_eq_lcsF A B i j hi hj]
  have := lcsF_max ((A.take i).reverse.length + (B.take j).reverse.length)
    (A.take i).reverse (B.take j).reverse l.reverse (le_refl _)
    hA.reverse hB.reverse
  simpa using this

theorem take_sublist_take_succ (A : List Line) (i : Nat) :
    (A.take i).Sublist (A.take (i + 1)) := by
  have h := (List.take_prefix i (A.take (i + 1))).sublist
  rwa [List.take_take, min_eq_left (by omega)] at h

theorem backtrackAux_sublist (A B : List Line) : ∀ fuel i j,
    i + j ≤ fuel → i ≤ A.length → j ≤ B.length →
    (backtrackAux A B fuel i j).Sublist (A.take i) ∧
      (backtrackAux A B fuel i j).Sublist (B.take j) := by
  intro fuel
  induction fuel with
  | zero =>
    intro i j hf _ _
    have hi : i = 0 := by omega
    have hj : j = 0 := by omega
    subst hi; subst hj
    simp [backtrackAux]
  | succ fuel ih =>
    intro i j hf hi hj
    match i, j with
    | 0, _ => simp [backtrackAux]
    | _ + 1, 0 => simp [backtrackAux]
    | i + 1, j + 1 =>
      simp only [backtrackAux]
      by_cases heq : getE A i = getE B j
      · rw [if_pos heq]
        obtain ⟨s1, s2⟩ := ih i j (by omega) (by omega) (by omega)
        constructor
        · rw [List.take_succ, List.getElem?_eq_getElem (show i < A.length by omega)]
          have : getE A i = A[i] := by
            simp [getE, List.getD_eq_getElem?_getD, List.getElem?_eq_getElem
              (show i < A.length by omega)]
          rw [← this]
          exact s1.append (List.Sublist.refl _)
        · rw [List.take_succ, List.getElem?_eq_getElem (show j < B.length by omega)]
          have : getE B j = B[j] := by
            simp [getE, List.getD_eq_getElem?_getD, List.getElem?_eq_getElem
              (show j < B.length by omega)]
          rw [← this, heq]
          exact s2.append (List.Sublist.refl _)
      · rw [if_neg heq]
        by_cases hgt : dpT A B i (j + 1) > dpT A B (i + 1) j
        · rw [if_pos hgt]
          obtain ⟨s1, s2⟩ := ih i (j + 1) (by omega) (by omega) (by omega)
          exact ⟨s1.trans (take_sublist_take_succ A i), s2⟩
        · rw [if_neg hgt]
          obtain ⟨s1, s2⟩ := ih (i + 1) j (by omega) (by omega) (by omega)
          exact ⟨s1, s2.trans (take_sublist_take_succ B j)⟩

theorem backtrackAux_length (A B : List Line) : ∀ fuel i j,
    i + j ≤ fuel → i ≤ A.length → j ≤ B.length →
    (backtrackAux A B fuel i j).length = dpT A B i j := by
  intro fuel
  induction fuel with
  | zero =>
    intro i j hf _ _
    have hi : i = 0 := by omega
    have hj : j = 0 := by omega
    subst hi; subst hj
    simp [backtrackAux, dpT]
  | succ fuel ih =>
    intro i j hf hi hj
    match i, j with
    | 0, _ => simp [backtrackAux, dpT]
    | i + 1, 0 => simp [backtrackAux, dpT, dpSucc]
    | i + 1, j + 1 =>
      rw [dpT_succ_succ]
      simp only [backtrackAux]
      by_cases heq : getE A i = getE B j
      · rw [if_pos heq, if_pos heq]
        simp [ih i j (by omega) (by omega) (by omega)]
      · rw [if_neg heq, if_neg heq]
        by_cases hgt : dpT A B i (j + 1) > dpT A B (i + 1) j
        · rw [if_pos hgt, ih i (j + 1) (by omega) (by omega) (by omega)]
          exact (Nat.max_eq_left (le_of_lt hgt)).symm
        · rw [if_neg hgt, ih (i + 1) j (by omega) (by omega) (by omega)]
          exact (Nat.max_eq_right (by omega)).symm

theorem lcs_sublist_left (A B : List Line) :
    (longestCommonSubsequence A B).Sublist A := by
  have h := (backtrackAux_sublist A B (A.length + B.length) A.length B.length
    (le_refl _) (le_refl _) (le_refl _)).1
  rwa [List.take_length] at h

theorem lcs_sublist_right (A B : List Line) :
    (longestCommonSubsequence A B).Sublist B := by
  have h := (backtrackAux_sublist A B (A.length + B.length) A.length B.length
    (le_refl _) (le_refl _) (le_refl _)).2
  rwa [List.take_length] at h

theorem lcs_length_eq_dpT (A B : List Line) :
    (longestCommonSubsequence A B).length = dpT A B A.length B.length :=
  backtrackAux_length A B (A.length + B.length) A.length B.length
    (le_refl _) (le_refl _) (le_refl _)

theorem lcs_max (A B : List Line) {l : List Line} (hA : l.Sublist A)
    (hB : l.Sublist B) : l.length ≤ (longestCommonSubsequence A B).length := by
  rw [lcs_length_eq_dpT]
  exact dpT_max A B (le_refl _) (le_refl _)
    (by rwa [List.take_length]) (by rwa [List.take_length])

theorem lcs_length_comm (A B : List Line) :
    (longestCommonSubsequence A B).length = (longestCommonSubsequence B A).length :=
  Nat.le_antisymm
    (lcs_max B A (lcs_sublist_right A B) (lcs_sublist_left A B))
    (lcs_max A B (lcs_sublist_right B A) (lcs_sublist_left B A))

theorem backtrackAux_self (L : List Line) : ∀ fuel i,
    i + i ≤ fuel → i ≤ L.length → backtrackAux L L fuel i i = L.take i := by
  intro fuel
  induction fuel with
  | zero =>
    intro i hf _
    have : i = 0 := by omega
    subst this
    simp [backtrackAux]
  | succ fuel ih =>
    intro i hf hi
    match i with
    | 0 => simp [backtrackAux]
    | i + 1 =>
      simp only [backtrackAux, if_pos rfl]
      rw [ih i (by omega) (by omega),
        List.take_succ, List.getElem?_eq_getElem (show i < L.length by omega)]
      simp [getE, List.getD_eq_getElem?_getD, List.getElem?_eq_getElem
        (show i < L.length by omega)]

theorem lcs_self (L : List Line) : longestCommonSubsequence L L = L := by
  unfold longestCommonSubsequence
  rw [backtrackAux_self L (L.length + L.length) L.length (le_refl _) (le_refl _),
    List.take_length]

/-! ## Classifier machinery -/

theorem getE_eq_getElem {l : List Line} {i : Nat} (h : i < l.length) :
    getE l i = l[i] :=
  List.getD_eq_getElem l default h

theorem drop_cons_getE {l : List Line} {i : Nat} (h : i < l.length) :
    l.drop i = getE l i :: l.drop (i + 1) := by
  rw [getE_eq_getElem h]
  exact List.drop_eq_getElem_cons h

theorem sublist_of_ne_head {a b : Line} {l m : List Line}
    (h : (b :: l).Sublist (a :: m)) (hne : b ≠ a) : (b :: l).Sublist m := by
  cases h with
  | cons _ h => exact h
  | cons₂ _ h => exact absurd rfl hne

/-- The predicate selecting the left-document records (removed or
context), as in the reconstruction claim. -/
def keepsOld (r : DiffLine) : Bool :=
  decide (r.type = DiffType.removed ∨ r.type = DiffType.context)

/-- The predicate selecting the right-document records (added or
context), as in the reconstruction claim. -/
def keepsNew (r : DiffLine) : Bool :=
  decide (r.type = DiffType.added ∨ r.type = DiffType.context)

theorem diffGoAux_reconstruct (A B lcs : List Line) : ∀ fuel i j k oldN newN,
    (A.length - i) + (B.length - j) ≤ fuel →
    (lcs.drop k).Sublist (A.drop i) →
    (lcs.drop k).Sublist (B.drop j) →
    ((diffGoAux A B lcs fuel i j k oldN newN).filter keepsOld).map
        DiffLine.content = A.drop i ∧
    ((diffGoAux A B lcs fuel i j k oldN newN).filter keepsNew).map
        DiffLine.content = B.drop j := by
  intro fuel
  induction fuel with
  | zero =>
    intro i j k oldN newN hf hA hB
    have h1 : A.drop i = [] := List.drop_eq_nil_of_le (by omega)
    have h2 : B.drop j = [] := List.drop_eq_nil_of_le (by omega)
    simp [diffGoAux, h1, h2]
  | succ fuel ih =>
    intro i j k oldN newN hf hA hB
    simp only [diffGoAux]
    by_cases hloop : i < A.length ∨ j < B.length
    · rw [if_pos hloop]
      by_cases hb1 : k < lcs.length ∧ i < A.length ∧ j < B.length ∧
          getE A i = getE lcs k ∧ getE B j = getE lcs k
      · rw [if_pos hb1]
        obtain ⟨hk, hiA, hjB, hAk, hBk⟩ := hb1
        have hA' : (lcs.drop (k + 1)).Sublist (A.drop (i + 1)) := by
          rw [drop_cons_getE hk, drop_cons_getE hiA, hAk] at hA
          exact List.cons_sublist_cons.mp hA
        have hB' : (lcs.drop (k + 1)).Sublist (B.drop (j + 1)) := by
          rw [drop_cons_getE hk, drop_cons_getE hjB, hBk] at hB
          exact List.cons_sublist_cons.mp hB
        obtain ⟨IH1, IH2⟩ := ih (i + 1) (j + 1) (k + 1) (oldN + 1) (newN + 1)
          (by omega) hA' hB'
        constructor
        · rw [List.filter_cons_of_pos (by rfl), List.map_cons, IH1,
            drop_cons_getE hiA]
        · rw [List.filter_cons_of_pos (by rfl), List.map_cons, IH2,
            drop_cons_getE hjB]
          rw [hAk, ← hBk]
      · rw [if_neg hb1]
        by_cases hb2 : i < A.length ∧ (lcs.length ≤ k ∨ getE A i ≠ getE lcs k)
        · rw [if_pos hb2]
          obtain ⟨hiA, hor⟩ := hb2
          have hA' : (lcs.drop k).Sublist (A.drop (i + 1)) := by
            by_cases hk : lcs.length ≤ k
            · rw [List.drop_eq_nil_of_le hk]
              exact List.nil_sublist _
            · have hk' : k < lcs.length := by omega
              have hne : getE A i ≠ getE lcs k := by
                rcases hor with h | h
                · exact absurd h hk
                · exact h
              rw [drop_cons_getE hk'] at hA ⊢
              rw [drop_cons_getE hiA] at hA
              exact sublist_of_ne_head hA (fun h => hne h.symm)
          obtain ⟨IH1, IH2⟩ := ih (i + 1) j k (oldN + 1) newN (by omega) hA' hB
          constructor
          · rw [List.filter_cons_of_pos (by rfl), List.map_cons, IH1,
              drop_cons_getE hiA]
          · rw [List.filter_cons_of_neg (by simp [keepsNew]), IH2]
        · rw [if_neg hb2]
          by_cases hb3 : j < B.length
          · rw [if_pos hb3]
            have hB' : (lcs.drop k).Sublist (B.drop (j + 1)) := by
              by_cases hk : lcs.length ≤ k
              · rw [List.drop_eq_nil_of_le hk]
                exact List.nil_sublist _
              · have hk' : k < lcs.length := by omega
                have hiA : i < A.length := by
                  by_contra hge
                  have : A.drop i = [] := List.drop_eq_nil_of_le (by omega)
                  rw [this] at hA
                  have := List.sublist_nil.mp hA
                  rw [List.drop_eq_nil_iff] at this
                  omega
                have hAk : getE A i = getE lcs k := by
                  by_contra hne
                  exact hb2 ⟨hiA, Or.inr hne⟩
                have hBne : getE B j ≠ getE lcs k := by
                  intro hBk
                  exact hb1 ⟨hk', hiA, hb3, hAk, hBk⟩
                rw [drop_cons_getE hk'] at hB ⊢
                rw [drop_cons_getE hb3] at hB
                exact sublist_of_ne_head hB (fun h => hBne h.symm)
            obtain ⟨IH1, IH2⟩ := ih i (j + 1) k oldN (newN + 1) (by omega) hA hB'
            constructor
            · rw [List.filter_cons_of_neg (by simp [keepsOld]), IH1]
            · rw [List.filter_cons_of_pos (by rfl), List.map_cons, IH2,
                drop_cons_getE hb3]
          · exfalso
            have hje : B.length ≤ j := by omega
            rw [List.drop_eq_nil_of_le hje] at hB
            have hlk := List.sublist_nil.mp hB
            rw [List.drop_eq_nil_iff] at hlk
            have hiA : ¬ i < A.length := fun hi => hb2 ⟨hi, Or.inl hlk⟩
            rcases hloop with h | h
            · exact hiA h
            · exact hb3 h
    · rw [if_neg hloop]
      push_neg at hloop
      have h1 : A.drop i = [] := List.drop_eq_nil_of_le (by omega)
      have h2 : B.drop j = [] := List.drop_eq_nil_of_le (by omega)
      simp [h1, h2]

theorem computeLineDiffRaw_reconstruct (A B : List Line) :
    ((computeLineDiffRaw A B).filter keepsOld).map DiffLine.content = A ∧
    ((computeLineDiffRaw A B).filter keepsNew).map DiffLine.content = B := by
  have h := diffGoAux_reconstruct A B (longestCommonSubsequence A B)
    (A.length + B.length) 0 0 0 1 1 (by omega)
    (by simpa using lcs_sublist_left A B)
    (by simpa using lcs_sublist_right A B)
  simpa [computeLineDiffRaw] using h

theorem diffGoAux_shape (A B lcs : List Line) : ∀ fuel i j k oldN newN,
    ∀ r ∈ diffGoAux A B lcs fuel i j k oldN newN, recordShape r := by
  intro fuel
  induction fuel with
  | zero => intro i j k oldN newN r h; simp [diffGoAux] at h
  | succ fuel ih =>
    intro i j k oldN newN r h
    simp only [diffGoAux] at h
    split at h
    · split at h
      · rcases List.mem_cons.mp h with rfl | h2
        · simp [recordShape]
        · exact ih _ _ _ _ _ r h2
      · split at h
        · rcases List.mem_cons.mp h with rfl | h2
          · simp [recordShape]
          · exact ih _ _ _ _ _ r h2
        · split at h
          · rcases List.mem_cons.mp h with rfl | h2
            · simp [recordShape]
            · exact ih _ _ _ _ _ r h2
          · simp at h
    · simp at h

theorem diffGoAux_oldNumbers (A B lcs : List Line) : ∀ fuel i j k oldN newN,
    (∀ x ∈ (diffGoAux A B lcs fuel i j k oldN newN).filterMap
        DiffLine.oldLineNumber, oldN ≤ x) ∧
    ((diffGoAux A B lcs fuel i j k oldN newN).filterMap
        DiffLine.oldLineNumber).Pairwise (· < ·) := by
  intro fuel
  induction fuel with
  | zero => intro i j k oldN newN; simp [diffGoAux]
  | succ fuel ih =>
    intro i j k oldN newN
    simp only [diffGoAux]
    split
    · split
      · obtain ⟨hbd, hpw⟩ := ih (i + 1) (j + 1) (k + 1) (oldN + 1) (newN + 1)
        simp only [List.filterMap_cons]
        refine ⟨?_, ?_⟩
        · intro x hx
          rcases List.mem_cons.mp hx with rfl | hx2
          · exact le_refl _
          · exact le_trans (by omega) (hbd x hx2)
        · exact List.pairwise_cons.mpr
            ⟨fun x hx => by have := hbd x hx; omega, hpw⟩
      · split
        · obtain ⟨hbd, hpw⟩ := ih (i + 1) j k (oldN + 1) newN
          simp only [List.filterMap_cons]
          refine ⟨?_, ?_⟩
          · intro x hx
            rcases List.mem_cons.mp hx with rfl | hx2
            · exact le_refl _
            · exact le_trans (by omega) (hbd x hx2)
          · exact List.pairwise_cons.mpr
              ⟨fun x hx => by have := hbd x hx; omega, hpw⟩
        · split
          · obtain ⟨hbd, hpw⟩ := ih i (j + 1) k oldN (newN + 1)
            simp only [List.filterMap_cons]
            exact ⟨hbd, hpw⟩
          · simp
    · simp

theorem diffGoAux_newNumbers (A B lcs : List Line) : ∀ fuel i j k oldN newN,
    (∀ x ∈ (diffGoAux A B lcs fuel i j k oldN newN).filterMap
        DiffLine.newLineNumber, newN ≤ x) ∧
    ((diffGoAux A B lcs fuel i j k oldN newN).filterMap
        DiffLine.newLineNumber).Pairwise (· < ·) := by
  intro fuel
  induction fuel with
  | zero => intro i j k oldN newN; simp [diffGoAux]
  | succ fuel ih =>
    intro i j k oldN newN
    simp only [diffGoAux]
    split
    · split
      · obtain ⟨hbd, hpw⟩ := ih (i + 1) (j + 1) (k + 1) (oldN + 1) (newN + 1)
        simp only [List.filterMap_cons]
        refine ⟨?_, ?_⟩
        · intro x hx
          rcases List.mem_cons.mp hx with rfl | hx2
          · exact le_refl _
          · exact le_trans (by omega) (hbd x hx2)
        · exact List.pairwise_cons.mpr
            ⟨fun x hx => by have := hbd x hx; omega, hpw⟩
      · split
        · obtain ⟨hbd, hpw⟩ := ih (i + 1) j k (oldN + 1) newN
          simp only [List.filterMap_cons]
          exact ⟨hbd, hpw⟩
        · split
          · obtain ⟨hbd, hpw⟩ := ih i (j + 1) k oldN (newN + 1)
            simp only [List.filterMap_cons]
            refine ⟨?_, ?_⟩
            · intro x hx
              rcases List.mem_cons.mp hx with rfl | hx2
              · exact le_refl _
              · exact le_trans (by omega) (hbd x hx2)
            · exact List.pairwise_cons.mpr
                ⟨fun x hx => by have := hbd x hx; omega, hpw⟩
          · simp
    · simp

theorem diffGoAux_context_count (A B lcs : List Line) : ∀ fuel i j k oldN newN,
    (A.length - i) + (B.length - j) ≤ fuel →
    (lcs.drop k).Sublist (A.drop i) →
    (lcs.drop k).Sublist (B.drop j) →
    (diffGoAux A B lcs fuel i j k oldN newN).countP
      (fun r => decide (r.type = DiffType.context)) = lcs.length - k := by
  intro fuel
  induction fuel with
  | zero =>
    intro i j k oldN newN hf hA hB
    have h1 : A.drop i = [] := List.drop_eq_nil_of_le (by omega)
    rw [h1] at hA
    have := List.sublist_nil.mp hA
    rw [List.drop_eq_nil_iff] at this
    simp only [diffGoAux, List.countP_nil]
    omega
  | succ fuel ih =>
    intro i j k oldN newN hf hA hB
    simp only [diffGoAux]
    by_cases hloop : i < A.length ∨ j < B.length
    · rw [if_pos hloop]
      by_cases hb1 : k < lcs.length ∧ i < A.length ∧ j < B.length ∧
          getE A i = getE lcs k ∧ getE B j = getE lcs k
      · rw [if_pos hb1]
        obtain ⟨hk, hiA, hjB, hAk, hBk⟩ := hb1
        have hA' : (lcs.drop (k + 1)).Sublist (A.drop (i + 1)) := by
          rw [drop_cons_getE hk, drop_cons_getE hiA, hAk] at hA
          exact List.cons_sublist_cons.mp hA
        have hB' : (lcs.drop (k + 1)).Sublist (B.drop (j + 1)) := by
          rw [drop_cons_getE hk, drop_cons_getE hjB, hBk] at hB
          exact List.cons_sublist_cons.mp hB
        rw [List.countP_cons,
          ih (i + 1) (j + 1) (k + 1) (oldN + 1) (newN + 1) (by omega) hA' hB']
        simp
        omega
      · rw [if_neg hb1]
        by_cases hb2 : i < A.length ∧ (lcs.length ≤ k ∨ getE A i ≠ getE lcs k)
        · rw [if_pos hb2]
          obtain ⟨hiA, hor⟩ := hb2
          have hA' : (lcs.drop k).Sublist (A.drop (i + 1)) := by
            by_cases hk : lcs.length ≤ k
            · rw [List.drop_eq_nil_of_le hk]
              exact List.nil_sublist _
            · have hk' : k < lcs.length := by omega
              have hne : getE A i ≠ getE lcs k := by
                rcases hor with h | h
                · exact absurd h hk
                · exact h
              rw [drop_cons_getE hk'] at hA ⊢
              rw [drop_cons_getE hiA] at hA
              exact sublist_of_ne_head hA (fun h => hne h.symm)
          rw [List.countP_cons,
            ih (i + 1) j k (oldN + 1) newN (by omega) hA' hB]
          simp
        · rw [if_neg hb2]
          by_cases hb3 : j < B.length
          · rw [if_pos hb3]
            have hB' : (lcs.drop k).Sublist (B.drop (j + 1)) := by
              by_cases hk : lcs.length ≤ k
              · rw [List.drop_eq_nil_of_le hk]
                exact List.nil_sublist _
              · have hk' : k < lcs.length := by omega
                have hiA : i < A.length := by
                  by_contra hge
                  have h1 : A.drop i = [] := List.drop_eq_nil_of_le (by omega)
                  rw [h1] at hA
                  have := List.sublist_nil.mp hA
                  rw [List.drop_eq_nil_iff] at this
                  omega
                have hAk : getE A i = getE lcs k := by
                  by_contra hne
                  exact hb2 ⟨hiA, Or.inr hne⟩
                have hBne : getE B j ≠ getE lcs k := by
                  intro hBk
                  exact hb1 ⟨hk', hiA, hb3, hAk, hBk⟩
                rw [drop_cons_getE hk'] at hB ⊢
                rw [drop_cons_getE hb3] at hB
                exact sublist_of_ne_head hB (fun h => hBne h.symm)
            rw [List.countP_cons,
              ih i (j + 1) k oldN (newN + 1) (by omega) hA hB']
            simp
          · exfalso
            have hje : B.length ≤ j := by omega
            rw [List.drop_eq_nil_of_le hje] at hB
            have hlk := List.sublist_nil.mp hB
            rw [List.drop_eq_nil_iff] at hlk
            have hiA : ¬ i < A.length := fun hi => hb2 ⟨hi, Or.inl hlk⟩
            rcases hloop with h | h
            · exact hiA h
            · exact hb3 h
    · rw [if_neg hloop]
      push_neg at hloop
      have h1 : A.drop i = [] := List.drop_eq_nil_of_le (by omega)
      rw [h1] at hA
      have := List.sublist_nil.mp hA
      rw [List.drop_eq_nil_iff] at this
      simp only [List.countP_nil]
      omega

/-! ## Collapser machinery -/

theorem nonContextAt_lt {d : List DiffLine} {j : Nat}
    (h : nonContextAt d j = true) : j < d.length := by
  unfold nonContextAt at h
  cases hd : d[j]? with
  | none => rw [hd] at h; simp at h
  | some r =>
    by_contra hge
    rw [List.getElem?_eq_none (by omega)] at hd
    cases hd

theorem findPrev_none (d : List DiffLine) : ∀ i,
    findPreviousNonContextIndex d i = none →
    ∀ j, j < i → nonContextAt d j = false := by
  intro i
  induction i with
  | zero => intro _ j hj; omega
  | succ i ih =>
    intro h j hj
    by_cases hc : nonContextAt d i
    · simp [findPreviousNonContextIndex, hc] at h
    · rw [findPreviousNonContextIndex, if_neg hc] at h
      rcases Nat.lt_succ_iff_lt_or_eq.mp hj with hj2 | rfl
      · exact ih h j hj2
      · exact Bool.eq_false_iff.mpr hc

theorem findPrev_some (d : List DiffLine) : ∀ i p,
    findPreviousNonContextIndex d i = some p →
    p < i ∧ nonContextAt d p = true ∧
      ∀ j, p < j → j < i → nonContextAt d j = false := by
  intro i
  induction i with
  | zero => intro p h; cases h
  | succ i ih =>
    intro p h
    by_cases hc : nonContextAt d i
    · rw [findPreviousNonContextIndex, if_pos hc] at h
      cases h
      exact ⟨Nat.lt_succ_self _, hc, fun j h1 h2 => by omega⟩
    · rw [findPreviousNonContextIndex, if_neg hc] at h
      obtain ⟨h1, h2, h3⟩ := ih p h
      refine ⟨by omega, h2, fun j hj1 hj2 => ?_⟩
      rcases Nat.lt_succ_iff_lt_or_eq.mp hj2 with hj3 | rfl
      · exact h3 j hj1 hj3
      · exact Bool.eq_false_iff.mpr hc

theorem findNextAux_none (d : List DiffLine) : ∀ fuel x,
    d.length ≤ x + fuel → findNextAux d fuel x = none →
    ∀ j, x ≤ j → j < d.length → nonContextAt d j = false := by
  intro fuel
  induction fuel with
  | zero => intro x hx _ j hj1 hj2; omega
  | succ fuel ih =>
    intro x hx h j hj1 hj2
    by_cases hlt : x < d.length
    · rw [findNextAux, if_pos hlt] at h
      by_cases hc : nonContextAt d x
      · rw [if_pos hc] at h; cases h
      · rw [if_neg hc] at h
        rcases Nat.lt_or_ge x j with hxj | hxj
        · exact ih (x + 1) (by omega) h j (by omega) hj2
        · have : j = x := by omega
          subst this
          exact Bool.eq_false_iff.mpr hc
    · omega

theorem findNextAux_some (d : List DiffLine) : ∀ fuel x nx,
    findNextAux d fuel x = some nx →
    x ≤ nx ∧ nx < d.length ∧ nonContextAt d nx = true ∧
      ∀ j, x ≤ j → j < nx → nonContextAt d j = false := by
  intro fuel
  induction fuel with
  | zero => intro x nx h; cases h
  | succ fuel ih =>
    intro x nx h
    by_cases hlt : x < d.length
    · rw [findNextAux, if_pos hlt] at h
      by_cases hc : nonContextAt d x
      · rw [if_pos hc] at h
        cases h
        exact ⟨le_refl _, hlt, hc, fun j h1 h2 => by omega⟩
      · rw [if_neg hc] at h
        obtain ⟨h1, h2, h3, h4⟩ := ih (x + 1) nx h
        refine ⟨by omega, h2, h3, fun j hj1 hj2 => ?_⟩
        rcases Nat.lt_or_ge x j with hxj | hxj
        · exact h4 j (by omega) hj2
        · have : j = x := by omega
          subst this
          exact Bool.eq_false_iff.mpr hc
    · rw [findNextAux, if_neg hlt] at h
      cases h

theorem shouldShow_iff (d : List DiffLine) (i : Nat) :
    shouldShow d i = true ↔ nearChange d i := by
  constructor
  · intro h
    rw [shouldShow, Bool.or_eq_true] at h
    rcases h with h | h
    · cases hp : findPreviousNonContextIndex d i with
      | none => rw [hp] at h; cases h
      | some p =>
        rw [hp] at h
        obtain ⟨h1, h2, _⟩ := findPrev_some d i p hp
        exact ⟨p, nonContextAt_lt h2, h2,
          Or.inl ⟨h1, by simp at h; omega⟩⟩
    · cases hn : findNextNonContextIndex d i with
      | none => rw [hn] at h; cases h
      | some nx =>
        rw [hn] at h
        obtain ⟨h1, h2, h3, _⟩ := findNextAux_some d d.length (i + 1) nx hn
        exact ⟨nx, h2, h3, Or.inr ⟨by omega, by simp at h; omega⟩⟩
  · rintro ⟨j, hjlen, hj, hside⟩
    rw [shouldShow, Bool.or_eq_true]
    rcases hside with ⟨hji, hij3⟩ | ⟨hij, hji3⟩
    · left
      cases hp : findPreviousNonContextIndex d i with
      | none =>
        have := findPrev_none d i hp j hji
        rw [this] at hj; cases hj
      | some p =>
        obtain ⟨h1, _, h3⟩ := findPrev_some d i p hp
        have hpj : j ≤ p := by
          by_contra hlt
          have := h3 j (by omega) hji
          rw [this] at hj; cases hj
        simp
        omega
    · right
      cases hn : findNextNonContextIndex d i with
      | none =>
        have := findNextAux_none d d.length (i + 1) (by omega) hn j (by omega) hjlen
        rw [this] at hj; cases hj
      | some nx =>
        obtain ⟨h1, _, _, h4⟩ := findNextAux_some d d.length (i + 1) nx hn
        have hnj : nx ≤ j := by
          by_contra hlt
          have := h4 j (by omega) (by omega)
          rw [this] at hj; cases hj
        simp
        omega

theorem shouldShow_eq_decide (d : List DiffLine) (i : Nat) :
    shouldShow d i = decide (nearChange d i) := by
  by_cases h : nearChange d i
  · simp [h, (shouldShow_iff d i).mpr h]
  · have hne : shouldShow d i ≠ true := fun ht => h ((shouldShow_iff d i).mp ht)
    simp [h, Bool.eq_false_iff.mpr hne]

theorem optimize_eq_near (d : List DiffLine) :
    optimizeDiffResult d =
      (d.enum.filter (fun p => decide (p.2.type ≠ DiffType.context) ||
        decide (nearChange d p.1))).map Prod.snd := by
  unfold optimizeDiffResult
  congr 1
  apply List.filter_congr
  intro p _
  rw [shouldShow_eq_decide]

theorem optimize_sublist (d : List DiffLine) :
    (optimizeDiffResult d).Sublist d := by
  unfold optimizeDiffResult
  have h1 := (List.filter_sublist (p := fun p =>
    decide (p.2.type ≠ DiffType.context) || shouldShow d p.1) d.enum).map Prod.snd
  rwa [List.enum_eq_enumFrom, List.enumFrom_map_snd] at h1

theorem enumFrom_filter_snd (q : DiffLine → Bool) (l : List DiffLine) : ∀ n,
    ((l.enumFrom n).filter (fun a => q a.2)).map Prod.snd = l.filter q := by
  induction l with
  | nil => intro n; simp
  | cons x tl ih =>
    intro n
    rw [List.enumFrom_cons]
    by_cases hq : q x
    · rw [List.filter_cons_of_pos (by simpa using hq), List.map_cons,
        List.filter_cons_of_pos hq, ih (n + 1)]
    · rw [List.filter_cons_of_neg (by simpa using hq),
        List.filter_cons_of_neg hq, ih (n + 1)]

theorem optimize_filter_nonContext (d : List DiffLine) :
    (optimizeDiffResult d).filter (fun r => decide (r.type ≠ DiffType.context)) =
      d.filter (fun r => decide (r.type ≠ DiffType.context)) := by
  unfold optimizeDiffResult
  rw [List.filter_map, List.filter_filter]
  rw [List.filter_congr (q := fun a : Nat × DiffLine =>
    decide (a.2.type ≠ DiffType.context)) ?_]
  · rw [List.enum_eq_enumFrom]
    exact enumFrom_filter_snd (fun r => decide (r.type ≠ DiffType.context)) d 0
  · intro a _
    by_cases hb : a.2.type = DiffType.context
    · simp [hb]
    · simp [hb]

theorem optimize_of_all_context (d : List DiffLine)
    (h : ∀ r ∈ d, r.type = DiffType.context) : optimizeDiffResult d = [] := by
  rw [optimize_eq_near]
  have hf : (d.enum.filter (fun p => decide (p.2.type ≠ DiffType.context) ||
      decide (nearChange d p.1))) = [] := by
    rw [List.filter_eq_nil_iff]
    intro a ha
    have hmem : a.2 ∈ d := by
      have := List.mem_map_of_mem Prod.snd ha
      rwa [List.enum_eq_enumFrom, List.enumFrom_map_snd] at this
    have hctx := h a.2 hmem
    have hnc : ¬ nearChange d a.1 := by
      rintro ⟨j, hjlen, hj, _⟩
      unfold nonContextAt at hj
      cases hd : d[j]? with
      | none => rw [hd] at hj; cases hj
      | some r =>
        rw [hd] at hj
        have := h r (List.getElem?_mem hd)
        simp [this] at hj
    simp [hctx, hnc]
  rw [hf, List.map_nil]

/-! ## Identical inputs -/

theorem diffGoAux_self_all_context (L : List Line) : ∀ fuel i oldN newN,
    ∀ r ∈ diffGoAux L L L fuel i i i oldN newN, r.type = DiffType.context := by
  intro fuel
  induction fuel with
  | zero => intro i oldN newN r h; simp [diffGoAux] at h
  | succ fuel ih =>
    intro i oldN newN r h
    rw [diffGoAux] at h
    by_cases hi : i < L.length
    · rw [if_pos (Or.inl hi),
        if_pos (show i < L.length ∧ i < L.length ∧ i < L.length ∧
          getE L i = getE L i ∧ getE L i = getE L i from ⟨hi, hi, hi, rfl, rfl⟩)] at h
      rcases List.mem_cons.mp h with rfl | h2
      · rfl
      · exact ih (i + 1) (oldN + 1) (newN + 1) r h2
    · rw [if_neg (by omega)] at h
      simp at h

theorem computeLineDiff_self (L : List Line) : computeLineDiff L L = [] := by
  unfold computeLineDiff computeLineDiffRaw
  rw [lcs_self]
  exact optimize_of_all_context _
    (diffGoAux_self_all_context L (L.length + L.length) 0 1 1)

/-! ## Stats machinery -/

theorem foldl_stats_counts (d : List DiffLine) : ∀ a b : Nat,
    d.foldl (fun (p : Nat × Nat) line =>
      if line.type = DiffType.added then (p.1 + 1, p.2)
      else if line.type = DiffType.removed then (p.1, p.2 + 1)
      else p) (a, b) =
    (a + d.countP (fun r => decide (r.type = DiffType.added)),
      b + d.countP (fun r => decide (r.type = DiffType.removed))) := by
  induction d with
  | nil => intro a b; simp
  | cons r tl ih =>
    intro a b
    simp only [List.foldl_cons]
    cases htype : r.type
    · rw [if_pos rfl, ih, List.countP_cons, List.countP_cons]
      simp [htype]
      omega
    · rw [if_neg (fun h => DiffType.noConfusion h), if_pos rfl, ih,
        List.countP_cons, List.countP_cons]
      simp [htype]
      omega
    · rw [if_neg (fun h => DiffType.noConfusion h),
        if_neg (fun h => DiffType.noConfusion h), ih,
        List.countP_cons, List.countP_cons]
      simp [htype]

theorem calculateStats_eq_counts (d : List DiffLine) :
    calculateStats d =
      { additions := d.countP (fun r => decide (r.type = DiffType.added)),
        deletions := d.countP (fun r => decide (r.type = DiffType.removed)),
        changes := d.countP (fun r => decide (r.type = DiffType.added)) +
          d.countP (fun r => decide (r.type = DiffType.removed)) } := by
  unfold calculateStats
  rw [foldl_stats_counts d 0 0]
  simp

/-! ## Normalizer machinery -/

theorem splitLines_ne_nil (t : List Char) : splitLines t ≠ [] := by
  cases t with
  | nil => simp [splitLines]
  | cons c rest =>
    rw [splitLines]
    by_cases hc : c = '\n'
    · rw [if_pos hc]; simp
    · rw [if_neg hc]
      cases h : splitLines rest with
      | nil => simp
      | cons l ls => simp

theorem splitLines_append_newline (xs : List Char) :
    splitLines (xs ++ ['\n']) = splitLines xs ++ [[]] := by
  induction xs with
  | nil => simp [splitLines]
  | cons c rest ih =>
    by_cases hc : c = '\n'
    · subst hc
      rw [List.cons_append, splitLines, if_pos rfl, splitLines, if_pos rfl, ih,
        List.cons_append]
    · obtain ⟨h0, ts, hst⟩ : ∃ h0 ts, splitLines rest = h0 :: ts := by
        cases h : splitLines rest with
        | nil => exact absurd h (splitLines_ne_nil rest)
        | cons a b => exact ⟨a, b, rfl⟩
      rw [List.cons_append, splitLines, if_neg hc, splitLines, if_neg hc, ih, hst,
        List.cons_append]
      rfl

theorem filterAux_lastEmpty : ∀ (l : List Line) (s N : Nat), s + l.length = N + 1 →
    ((l.enumFrom s).filter
        (fun p => decide (p.1 < N) || decide (p.2 ≠ []))).map Prod.snd =
      if l.getLast? = some [] then l.dropLast else l := by
  intro l
  induction l with
  | nil => intro s N h; simp
  | cons x tl ih =>
    intro s N h
    cases tl with
    | nil =>
      have hN : N = s := by simp at h; omega
      subst hN
      rw [List.enumFrom_cons]
      by_cases hx : x = []
      · subst hx
        rw [List.filter_cons_of_neg (by simp)]
        simp
      · rw [List.filter_cons_of_pos (by simp [hx])]
        simp [hx]
    | cons y t =>
      have hs : s < N := by simp at h; omega
      rw [List.enumFrom_cons, List.filter_cons_of_pos (by simp [hs]),
        List.map_cons, ih (s + 1) N (by simp at h ⊢; omega),
        List.getLast?_cons_cons, List.dropLast_cons₂]
      by_cases hlast : (y :: t).getLast? = some []
      · rw [if_pos hlast, if_pos hlast]
      · rw [if_neg hlast, if_neg hlast]

theorem filterLines_eq (l : List Line) (h : l ≠ []) :
    filterLines l = if l.getLast? = some [] then l.dropLast else l := by
  unfold filterLines
  rw [List.enum_eq_enumFrom]
  exact filterAux_lastEmpty l 0 (l.length - 1)
    (by cases l with
      | nil => exact absurd rfl h
      | cons a b => simp)

theorem stripCRLF_ne_nil {t : List Char} (h : t ≠ []) : stripCRLF t ≠ [] := by
  cases t with
  | nil => exact absurd rfl h
  | cons c rest =>
    cases rest with
    | nil => simp [stripCRLF]
    | cons d rest2 =>
      rw [stripCRLF]
      by_cases hcd : c = '\r' ∧ d = '\n'
      · rw [if_pos hcd]; simp
      · rw [if_neg hcd]; simp

theorem normalizeLineEndings_ne_nil {t : List Char} (h : t ≠ []) :
    normalizeLineEndings t ≠ [] := by
  unfold normalizeLineEndings stripCR
  intro hc
  simp at hc
  exact stripCRLF_ne_nil h hc

theorem preprocess_eq_nwb (t : List Char) (h : t ≠ []) :
    preprocessText t = normalizedWithBreak t := by
  unfold preprocessText normalizedWithBreak
  rw [if_neg h]
  have hn := normalizeLineEndings_ne_nil h
  by_cases hl : (normalizeLineEndings t).getLast? = some '\n'
  · rw [if_pos hl, if_neg (by simp [hl])]
  · rw [if_neg hl, if_pos ⟨by simpa [List.length_pos] using hn, hl⟩]

theorem nwb_append (t : List Char) (h : t ≠ []) :
    ∃ Y, normalizedWithBreak t = Y ++ ['\n'] := by
  unfold normalizedWithBreak
  by_cases hl : (normalizeLineEndings t).getLast? = some '\n'
  · rw [if_pos hl]
    refine ⟨(normalizeLineEndings t).dropLast, ?_⟩
    have hn := normalizeLineEndings_ne_nil h
    have hcat := List.dropLast_concat_getLast (l := normalizeLineEndings t) hn
    have hg : (normalizeLineEndings t).getLast hn = '\n' := by
      have h2 := List.getLast?_eq_getLast (normalizeLineEndings t) hn
      rw [h2] at hl
      exact Option.some_inj.mp hl
    conv_lhs => rw [← hcat]
    rw [hg]
  · exact ⟨normalizeLineEndings t, by rw [if_neg hl]⟩

theorem linesOf_of_ne (t : List Char) (h : t ≠ []) :
    linesOf t = (splitLines (normalizedWithBreak t)).dropLast ∧
    (splitLines (normalizedWithBreak t)).getLast? = some [] := by
  obtain ⟨Y, hY⟩ := nwb_append t h
  have hsp : splitLines (normalizedWithBreak t) = splitLines Y ++ [[]] := by
    rw [hY]; exact splitLines_append_newline Y
  constructor
  · unfold linesOf
    rw [preprocess_eq_nwb t h, filterLines_eq _ (splitLines_ne_nil _), hsp,
      if_pos (List.getLast?_concat _)]
  · rw [hsp]; exact List.getLast?_concat _

theorem linesOf_nil : linesOf [] = [] := rfl

theorem stripCRLF_no_cr : ∀ t : List Char, '\r' ∉ t → stripCRLF t = t := by
  intro t
  induction t with
  | nil => intro _; rfl
  | cons c rest ih =>
    intro h
    cases rest with
    | nil => simp [stripCRLF]
    | cons d rest2 =>
      rw [stripCRLF]
      have hc : c ≠ '\r' := by
        intro hh
        exact h (by simp [hh])
      rw [if_neg (fun hcd => hc hcd.1)]
      have := ih (fun hm => h (List.mem_cons_of_mem c hm))
      rw [this]

theorem splitLines_replicate : ∀ m : Nat,
    splitLines (List.replicate m '\n') = List.replicate (m + 1) [] := by
  intro m
  induction m with
  | zero => simp [splitLines]
  | succ m ih =>
    rw [List.replicate_succ, splitLines, if_pos rfl, ih, ← List.replicate_succ]

theorem normalize_replicate (m : Nat) :
    normalizeLineEndings (List.replicate m '\n') = List.replicate m '\n' := by
  unfold normalizeLineEndings
  rw [stripCRLF_no_cr _ (by simp [List.mem_replicate])]
  unfold stripCR
  rw [List.map_replicate]
  simp

theorem linesOf_replicate (n : Nat) :
    linesOf (List.replicate n '\n') = List.replicate n [] := by
  cases n with
  | zero => rfl
  | succ m =>
    have hne : List.replicate (m + 1) '\n' ≠ [] := by simp
    have hlast : (List.replicate (m + 1) '\n').getLast? = some '\n' := by
      rw [List.replicate_succ']
      exact List.getLast?_concat _
    have hnwb : normalizedWithBreak (List.replicate (m + 1) '\n') =
        List.replicate (m + 1) '\n' := by
      unfold normalizedWithBreak
      rw [normalize_replicate, if_pos hlast]
    unfold linesOf
    rw [preprocess_eq_nwb _ hne, hnwb, splitLines_replicate,
      filterLines_eq _ (by simp)]
    have hlast2 : (List.replicate (m + 1 + 1) ([] : Line)).getLast? = some [] := by
      rw [List.replicate_succ']
      exact List.getLast?_concat _
    rw [if_pos hlast2, List.replicate_succ' (m + 1) ([] : Line),
      List.dropLast_concat]

/-! ## Stats symmetry machinery -/

theorem countP_keepsOld_split (l : List DiffLine) :
    l.countP keepsOld =
      l.countP (fun r => decide (r.type = DiffType.removed)) +
        l.countP (fun r => decide (r.type = DiffType.context)) := by
  induction l with
  | nil => rfl
  | cons r tl ih =>
    rw [List.countP_cons, List.countP_cons, List.countP_cons, ih]
    cases h : r.type <;> simp [keepsOld, h] <;> omega

theorem countP_keepsNew_split (l : List DiffLine) :
    l.countP keepsNew =
      l.countP (fun r => decide (r.type = DiffType.added)) +
        l.countP (fun r => decide (r.type = DiffType.context)) := by
  induction l with
  | nil => rfl
  | cons r tl ih =>
    rw [List.countP_cons, List.countP_cons, List.countP_cons, ih]
    cases h : r.type <;> simp [keepsNew, h] <;> omega

theorem raw_context_count (A B : List Line) :
    (computeLineDiffRaw A B).countP (fun r => decide (r.type = DiffType.context)) =
      (longestCommonSubsequence A B).length := by
  have h := diffGoAux_context_count A B (longestCommonSubsequence A B)
    (A.length + B.length) 0 0 0 1 1 (by omega)
    (by simpa using lcs_sublist_left A B)
    (by simpa using lcs_sublist_right A B)
  simpa [computeLineDiffRaw] using h

theorem raw_removed_count (A B : List Line) :
    (computeLineDiffRaw A B).countP (fun r => decide (r.type = DiffType.removed)) =
      A.length - (longestCommonSubsequence A B).length := by
  have hlen : (computeLineDiffRaw A B).countP keepsOld = A.length := by
    have h := congrArg List.length (computeLineDiffRaw_reconstruct A B).1
    rwa [List.length_map, ← List.countP_eq_length_filter] at h
  have hctx := raw_context_count A B
  have hsplit := countP_keepsOld_split (computeLineDiffRaw A B)
  have hle : (longestCommonSubsequence A B).length ≤ A.length :=
    (lcs_sublist_left A B).length_le
  omega

theorem raw_added_count (A B : List Line) :
    (computeLineDiffRaw A B).countP (fun r => decide (r.type = DiffType.added)) =
      B.length - (longestCommonSubsequence A B).length := by
  have hlen : (computeLineDiffRaw A B).countP keepsNew = B.length := by
    have h := congrArg List.length (computeLineDiffRaw_reconstruct A B).2
    rwa [List.length_map, ← List.countP_eq_length_filter] at h
  have hctx := raw_context_count A B
  have hsplit := countP_keepsNew_split (computeLineDiffRaw A B)
  have hle : (longestCommonSubsequence A B).length ≤ B.length :=
    (lcs_sublist_right A B).length_le
  omega

theorem countP_and_nonctx (X : List DiffLine) (c : DiffType)
    (hc : c ≠ DiffType.context) :
    X.countP (fun r => decide (r.type = c) && decide (r.type ≠ DiffType.context)) =
      X.countP (fun r => decide (r.type = c)) := by
  induction X with
  | nil => rfl
  | cons r tl ih =>
    rw [List.countP_cons, List.countP_cons, ih]
    by_cases h : r.type = c
    · simp [h, hc]
    · simp [h]

theorem collapsed_count_eq_raw (A B : List Line) (c : DiffType)
    (hc : c ≠ DiffType.context) :
    (computeLineDiff A B).countP (fun r => decide (r.type = c)) =
      (computeLineDiffRaw A B).countP (fun r => decide (r.type = c)) := by
  have hopt : (computeLineDiff A B).filter
      (fun r => decide (r.type ≠ DiffType.context)) =
    (computeLineDiffRaw A B).filter
      (fun r => decide (r.type ≠ DiffType.context)) :=
    optimize_filter_nonContext (computeLineDiffRaw A B)
  have h1 := congrArg
    (List.countP (fun r => decide (r.type = c))) hopt
  rwa [List.countP_filter, List.countP_filter, countP_and_nonctx _ c hc,
    countP_and_nonctx _ c hc] at h1

theorem computeTextDiff_stats_formula (t1 t2 : List Char) :
    (computeTextDiff t1 t2).stats.additions =
      (linesOf t2).length -
        (longestCommonSubsequence (linesOf t1) (linesOf t2)).length ∧
    (computeTextDiff t1 t2).stats.deletions =
      (linesOf t1).length -
        (longestCommonSubsequence (linesOf t1) (linesOf t2)).length := by
  have hstats : (computeTextDiff t1 t2).stats =
      calculateStats (computeLineDiff (linesOf t1) (linesOf t2)) := rfl
  rw [hstats, calculateStats_eq_counts]
  constructor
  · show (computeLineDiff (linesOf t1) (linesOf t2)).countP
      (fun r => decide (r.type = DiffType.added)) = _
    rw [collapsed_count_eq_raw _ _ DiffType.added (fun h => DiffType.noConfusion h),
      raw_added_count]
  · show (computeLineDiff (linesOf t1) (linesOf t2)).countP
      (fun r => decide (r.type = DiffType.removed)) = _
    rw [collapsed_count_eq_raw _ _ DiffType.removed (fun h => DiffType.noConfusion h),
      raw_removed_count]

/-! ## The claims -/

/-- C1: for all line sequences `A` and `B`, the list returned by
`longestCommonSubsequence` is a common subsequence of both `A` and `B`
(order-preserving, by exact equality of lines), and its length is
maximal among all common subsequences of `A` and `B`. -/
theorem c1_lcs_correct (A B : List Line) :
    (longestCommonSubsequence A B).Sublist A ∧
    (longestCommonSubsequence A B).Sublist B ∧
    ∀ l : List Line, l.Sublist A → l.Sublist B →
      l.length ≤ (longestCommonSubsequence A B).length :=
  ⟨lcs_sublist_left A B, lcs_sublist_right A B,
    fun _ hA hB => lcs_max A B hA hB⟩

theorem c1_lcs_correct_witness :
    ([['b']] : List Line).Sublist [['a'], ['b']] ∧
    ([['b']] : List Line).Sublist [['b'], ['a']] ∧
    ([['b']] : List Line).length ≤
      (longestCommonSubsequence [['a'], ['b']] [['b'], ['a']]).length := by
  have h1 : ([['b']] : List Line).Sublist [['a'], ['b']] :=
    List.Sublist.cons _ (List.Sublist.cons₂ _ (List.nil_sublist _))
  have h2 : ([['b']] : List Line).Sublist [['b'], ['a']] :=
    List.Sublist.cons₂ _ (List.Sublist.cons _ (List.nil_sublist _))
  exact ⟨h1, h2, (c1_lcs_correct [['a'], ['b']] [['b'], ['a']]).2.2 [['b']] h1 h2⟩

/-- C2: filtering the removed and context records out of the full
(uncollapsed) record list of the classifier, in order, yields exactly
the lines of `A`; filtering the added and context records yields exactly
the lines of `B`. -/
theorem c2_reconstruct (A B : List Line) :
    ((computeLineDiffRaw A B).filter keepsOld).map DiffLine.content = A ∧
    ((computeLineDiffRaw A B).filter keepsNew).map DiffLine.content = B :=
  computeLineDiffRaw_reconstruct A B

/-- C3: every record of the classifier satisfies the per-kind
line-number shape (context carries both numbers, removed only the old
one, added only the new one), and over the full (uncollapsed) record
sequence the old line numbers are strictly increasing, as are the new
line numbers. -/
theorem c3_invariants (A B : List Line) :
    (∀ r ∈ computeLineDiffRaw A B, recordShape r) ∧
    ((computeLineDiffRaw A B).filterMap DiffLine.oldLineNumber).Pairwise (· < ·) ∧
    ((computeLineDiffRaw A B).filterMap DiffLine.newLineNumber).Pairwise (· < ·) :=
  ⟨diffGoAux_shape A B (longestCommonSubsequence A B)
      (A.length + B.length) 0 0 0 1 1,
    (diffGoAux_oldNumbers A B (longestCommonSubsequence A B)
      (A.length + B.length) 0 0 0 1 1).2,
    (diffGoAux_newNumbers A B (longestCommonSubsequence A B)
      (A.length + B.length) 0 0 0 1 1).2⟩

theorem c3_invariants_witness :
    ({ type := DiffType.removed, oldLineNumber := some 1, newLineNumber := none,
        content := ['a'], isIdLine := false } : DiffLine) ∈
      computeLineDiffRaw [['a']] [] ∧
    recordShape ({ type := DiffType.removed, oldLineNumber := some 1,
                   newLineNumber := none, content := ['a'],
                   isIdLine := false } : DiffLine) :=
  ⟨by decide, (c3_invariants [['a']] []).1 _ (by decide)⟩

/-- C4: the normalizer maps the empty input to an empty line list; a
non-empty input is mapped to the lines of the line-ending-normalized
text with the forced trailing line break, with exactly the one synthetic
trailing empty entry dropped (so interior blank lines survive); and a
document of `n` line breaks yields `n` empty-string entries. -/
theorem c4_normalizer :
    linesOf [] = [] ∧
    (∀ t : List Char, t ≠ [] →
      linesOf t = (splitLines (normalizedWithBreak t)).dropLast ∧
      (splitLines (normalizedWithBreak t)).getLast? = some []) ∧
    ∀ n : Nat, linesOf (List.replicate n '\n') = List.replicate n [] :=
  ⟨linesOf_nil, fun t ht => linesOf_of_ne t ht, linesOf_replicate⟩

theorem c4_normalizer_witness :
    (['a'] : List Char) ≠ [] ∧
    linesOf ['a'] = (splitLines (normalizedWithBreak ['a'])).dropLast :=
  ⟨by decide, (c4_normalizer.2.1 ['a'] (by decide)).1⟩

/-- C5: the collapser returns the subsequence of its input that keeps
every non-context record and keeps a context record at index `i`
exactly when a non-context record exists within 3 positions before or
after `i`; retained records are not mutated (the result is a sublist,
and the non-context records are preserved verbatim). -/
theorem c5_collapser (d : List DiffLine) :
    optimizeDiffResult d =
      (d.enum.filter (fun p => decide (p.2.type ≠ DiffType.context) ||
        decide (nearChange d p.1))).map Prod.snd ∧
    (optimizeDiffResult d).Sublist d ∧
    (optimizeDiffResult d).filter (fun r => decide (r.type ≠ DiffType.context)) =
      d.filter (fun r => decide (r.type ≠ DiffType.context)) :=
  ⟨optimize_eq_near d, optimize_sublist d, optimize_filter_nonContext d⟩

/-- C6: the stats of a comparison are computed on the same post-collapse
record list that is returned: additions counts the added records,
deletions the removed records, and changes is their sum. -/
theorem c6_stats (t1 t2 : List Char) :
    (computeTextDiff t1 t2).stats =
      calculateStats (computeTextDiff t1 t2).lines ∧
    (computeTextDiff t1 t2).stats.additions =
      (computeTextDiff t1 t2).lines.countP
        (fun r => decide (r.type = DiffType.added)) ∧
    (computeTextDiff t1 t2).stats.deletions =
      (computeTextDiff t1 t2).lines.countP
        (fun r => decide (r.type = DiffType.removed)) ∧
    (computeTextDiff t1 t2).stats.changes =
      (computeTextDiff t1 t2).stats.additions +
        (computeTextDiff t1 t2).stats.deletions := by
  have hst : (computeTextDiff t1 t2).stats =
      calculateStats (computeTextDiff t1 t2).lines := rfl
  refine ⟨hst, ?_, ?_, ?_⟩ <;> rw [hst, calculateStats_eq_counts]

/-- C7 (counterexample): the claim that the LCS backtracking breaks
dp-value ties by decrementing the first sequence's index `i` is false:
at `A = ["a","b"]`, `B = ["b","a"]`, state `(2,2)`, the lines mismatch
and the two neighbor cells tie, yet the result equals the `j`-decrement
branch and differs from the `i`-decrement branch. -/
theorem c7_counterexample :
    getE ([['a'], ['b']] : List Line) 1 ≠ getE ([['b'], ['a']] : List Line) 1 ∧
    dpT [['a'], ['b']] [['b'], ['a']] 1 2 = dpT [['a'], ['b']] [['b'], ['a']] 2 1 ∧
    backtrackAux [['a'], ['b']] [['b'], ['a']] 4 2 2 =
      backtrackAux [['a'], ['b']] [['b'], ['a']] 3 2 1 ∧
    backtrackAux [['a'], ['b']] [['b'], ['a']] 4 2 2 ≠
      backtrackAux [['a'], ['b']] [['b'], ['a']] 3 1 2 ∧
    longestCommonSubsequence [['a'], ['b']] [['b'], ['a']] = [['b']] := by
  decide

/-- C7 (amended): on a mismatch the backtracking moves toward the
strictly larger neighbor cell, and on ties it decrements the second
sequence's index `j` (treating `B` as primary): it decrements `i` only
when `dp[i-1][j]` strictly exceeds `dp[i][j-1]`. -/
theorem c7_amended_tiebreak (A B : List Line) (fuel i j : Nat)
    (hne : getE A i ≠ getE B j) :
    (dpT A B i (j + 1) > dpT A B (i + 1) j →
      backtrackAux A B (fuel + 1) (i + 1) (j + 1) =
        backtrackAux A B fuel i (j + 1)) ∧
    (dpT A B i (j + 1) ≤ dpT A B (i + 1) j →
      backtrackAux A B (fuel + 1) (i + 1) (j + 1) =
        backtrackAux A B fuel (i + 1) j) := by
  constructor
  · intro h
    rw [backtrackAux, if_neg hne, if_pos h]
  · intro h
    rw [backtrackAux, if_neg hne, if_neg (by omega)]

theorem c7_amended_tiebreak_witness :
    getE ([['a'], ['b']] : List Line) 1 ≠ getE ([['b'], ['a']] : List Line) 1 ∧
    dpT [['a'], ['b']] [['b'], ['a']] 1 2 ≤ dpT [['a'], ['b']] [['b'], ['a']] 2 1 ∧
    backtrackAux [['a'], ['b']] [['b'], ['a']] 4 2 2 =
      backtrackAux [['a'], ['b']] [['b'], ['a']] 3 2 1 :=
  ⟨by decide, by decide,
    (c7_amended_tiebreak [['a'], ['b']] [['b'], ['a']] 3 1 1 (by decide)).2
      (by decide)⟩

/-- C8: comparing any text with itself yields no added and no removed
records and stats `{0, 0, 0}` (for identical inputs the collapsed list
is in fact empty). -/
theorem c8_idempotent (t : List Char) :
    (computeTextDiff t t).lines.countP
      (fun r => decide (r.type = DiffType.added)) = 0 ∧
    (computeTextDiff t t).lines.countP
      (fun r => decide (r.type = DiffType.removed)) = 0 ∧
    (computeTextDiff t t).stats =
      { additions := 0, deletions := 0, changes := 0 } := by
  have hl : (computeTextDiff t t).lines = [] := computeLineDiff_self (linesOf t)
  refine ⟨?_, ?_, ?_⟩
  · rw [hl]; rfl
  · rw [hl]; rfl
  · show calculateStats (computeTextDiff t t).lines = _
    rw [hl]
    rfl

/-- C9 (counterexample): `computeTextDiff "foo" "foo"` does not return a
single context record: the lone context record has no non-context
record within the 3-line window, so the collapser drops it and the
returned record list is empty. -/
theorem c9_counterexample :
    (computeTextDiff ['f', 'o', 'o'] ['f', 'o', 'o']).lines = [] ∧
    (computeTextDiff ['f', 'o', 'o'] ['f', 'o', 'o']).lines.length ≠ 1 := by
  decide

/-- C9 (amended): `computeTextDiff "foo" "foo"` (no trailing newline on
either side) returns an empty record list (the single context row is
collapsed away) with stats `{additions: 0, deletions: 0, changes: 0}`. -/
theorem c9_amended :
    (computeTextDiff ['f', 'o', 'o'] ['f', 'o', 'o']).lines = [] ∧
    (computeTextDiff ['f', 'o', 'o'] ['f', 'o', 'o']).stats =
      { additions := 0, deletions := 0, changes := 0 } := by
  decide

/-- C10: the stats of `computeTextDiff a b` and `computeTextDiff b a`
are mirror images: additions of one equal deletions of the other, and
the change totals agree (each side's count is its line count minus the
LCS length, which is symmetric). -/
theorem c10_stats_symmetry (t1 t2 : List Char) :
    (computeTextDiff t1 t2).stats.additions =
      (computeTextDiff t2 t1).stats.deletions ∧
    (computeTextDiff t1 t2).stats.deletions =
      (computeTextDiff t2 t1).stats.additions ∧
    (computeTextDiff t1 t2).stats.changes =
      (computeTextDiff t2 t1).stats.changes := by
  obtain ⟨ha12, hd12⟩ := computeTextDiff_stats_formula t1 t2
  obtain ⟨ha21, hd21⟩ := computeTextDiff_stats_formula t2 t1
  have hcomm := lcs_length_comm (linesOf t1) (linesOf t2)
  have hch : ∀ a b : List Char, (computeTextDiff a b).stats.changes =
      (computeTextDiff a b).stats.additions +
        (computeTextDiff a b).stats.deletions := fun a b => rfl
  refine ⟨?_, ?_, ?_⟩
  · rw [ha12, hd21, hcomm]
  · rw [hd12, ha21, hcomm]
  · rw [hch t1 t2, hch t2 t1, ha12, hd12, ha21, hd21, hcomm]
    omega

end DocDiff
